import Mathlib

/-!
# Secure-storage core: a shallow embedding with correctness theorems

This development embeds the core algorithms of the decentralized
file-storage system (chunker, AES-CBC framing, Merkle tree, DHT routing
table, replication candidate selection, chunk store, gateway download
tail) as executable Lean definitions, translated directly from the
Python sources, and proves or refutes the specified properties.

Conventions:
* Python `bytes` is modelled as `List Nat` (one `Nat` per byte).
* Python exceptions (`ValueError`, `IndexError`, HTTP error responses)
  are modelled with `Except String`.
* `hashlib.sha256` and the AES block cipher are external library
  primitives, not code of this repository; they are modelled as opaque
  function parameters (`H : List Nat → String` for a hex digest,
  `Hid : String → Nat` for the 256-bit integer digest of an identifier,
  `H2 : String → String → String` for the Merkle pair hash
  `sha256(fromhex l ++ fromhex r)`, and `E D` for the AES block
  encryption/decryption maps).
* Python dicts are modelled as insertion-ordered association lists.
-/

set_option autoImplicit false

namespace SecureStorage

/-! ## Chunker (`src/gateway/core/chunker.py`) -/

/-- The slicing loop of `split_file`: `for offset in range(0, total_size,
chunk_size): chunks.append(data[offset : offset + chunk_size])`.
Defined for every `n`; `split_file` only calls it with `n > 0`
(the `chunk_size <= 0` case raises before the loop). -/
def chunksOf {α : Type} (n : Nat) (l : List α) : List (List α) :=
  if l.isEmpty then []
  else if n = 0 then [l]
  else l.take n :: chunksOf n (l.drop n)
termination_by l.length
decreasing_by
  rename_i h1 h2
  simp [List.isEmpty_iff] at h1
  have hl : 0 < l.length := List.length_pos.mpr h1
  have hn : 0 < n := Nat.pos_of_ne_zero h2
  simp [List.length_drop]
  omega

/-- `split_file(data, chunk_size)`: raises `ValueError` on empty data or a
non-positive chunk size, otherwise slices `data` into `chunk_size`-byte
pieces.  `chunk_size` is a Python `int`, hence modelled as `Int`. -/
def split_file (data : List Nat) (chunk_size : Int) : Except String (List (List Nat)) :=
  if data.isEmpty then .error "Cannot split empty data"
  else if chunk_size ≤ 0 then .error "Chunk size must be a positive integer"
  else .ok (chunksOf chunk_size.toNat data)

/-- `reassemble_file(chunks)`: raises `ValueError` on an empty list,
otherwise returns `b"".join(chunks)`. -/
def reassemble_file (chunks : List (List Nat)) : Except String (List Nat) :=
  if chunks.isEmpty then .error "Cannot reassemble from empty chunk list"
  else .ok chunks.flatten

lemma chunksOf_flatten {α : Type} (n : Nat) (hn : 0 < n) :
    ∀ l : List α, (chunksOf n l).flatten = l := by
  intro l
  induction l using chunksOf.induct n with
  | case1 l hl =>
    rw [chunksOf]
    simp_all [List.isEmpty_iff]
  | case2 l hl hz => omega
  | case3 l hl hz ih =>
    rw [chunksOf]
    simp only [if_neg hl, if_neg hz, List.flatten_cons]
    rw [ih, List.take_append_drop]

lemma chunksOf_ne_nil {α : Type} (n : Nat) (l : List α) (hl : l ≠ []) :
    chunksOf n l ≠ [] := by
  rw [chunksOf]
  simp only [List.isEmpty_iff, hl, if_false]
  split <;> simp

/-- C1: for every non-empty byte string and positive chunk size, splitting
then reassembling recovers the input exactly; and `split_file` raises
`ValueError` exactly when the data is empty or the chunk size is not
positive. -/
theorem split_reassemble_roundtrip (data : List Nat) (S : Int) :
    (data ≠ [] → 0 < S →
      ∃ cs, split_file data S = Except.ok cs ∧
            reassemble_file cs = Except.ok data) ∧
    ((∃ e, split_file data S = Except.error e) ↔ data = [] ∨ S ≤ 0) := by
  constructor
  · intro hd hS
    have hde : data.isEmpty = false := by simp [List.isEmpty_iff, hd]
    have hSn : ¬ S ≤ 0 := by omega
    refine ⟨chunksOf S.toNat data, ?_, ?_⟩
    · simp [split_file, hde, hSn]
    · have hpos : 0 < S.toNat := by omega
      have hne := chunksOf_ne_nil S.toNat data hd
      simp only [reassemble_file, List.isEmpty_iff, hne, if_false]
      rw [chunksOf_flatten S.toNat hpos data]
  · constructor
    · rintro ⟨e, he⟩
      by_contra hcon
      push_neg at hcon
      obtain ⟨hd, hS⟩ := hcon
      have hde : data.isEmpty = false := by simp [List.isEmpty_iff, hd]
      simp [split_file, hde, show ¬ S ≤ 0 by omega] at he
    · rintro (hd | hS)
      · exact ⟨"Cannot split empty data", by simp [split_file, hd]⟩
      · rcases eq_or_ne data [] with hd | hd
        · exact ⟨"Cannot split empty data", by simp [split_file, hd]⟩
        · have hde : data.isEmpty = false := by simp [List.isEmpty_iff, hd]
          exact ⟨"Chunk size must be a positive integer",
            by simp [split_file, hde, hS]⟩

/-- Concrete instance of the round-trip theorem: 5 bytes, chunk size 2. -/
theorem split_reassemble_roundtrip_witness :
    ∃ cs, split_file [10, 20, 30, 40, 50] 2 = Except.ok cs ∧
          reassemble_file cs = Except.ok [10, 20, 30, 40, 50] :=
  (split_reassemble_roundtrip [10, 20, 30, 40, 50] 2).1 (by decide) (by decide)

/-! ## AES-256-CBC chunk encryption (`src/gateway/core/encryption.py`)

`encrypt_chunk` prepends a random 16-byte IV to the CBC ciphertext of the
PKCS#7-padded data; `decrypt_chunk` splits the IV back off, CBC-decrypts
and unpads.  The AES block permutation itself lives in PyCryptodome, so
it is a parameter pair `E D : List Nat → List Nat → List Nat`
(key → block → block); the random IV of `os.urandom` is likewise passed
in explicitly. -/

/-- AES-256 key size in bytes. -/
def KEY_SIZE : Nat := 32

/-- AES block size in bytes. -/
def BLOCK_SIZE : Nat := 16

/-- IV size in bytes. -/
def IV_SIZE : Nat := 16

/-- Byte-wise XOR of two equal-length byte strings. -/
def bxor (a b : List Nat) : List Nat := List.zipWith Nat.xor a b

/-- PKCS#7 padding (`Crypto.Util.Padding.pad`, style `pkcs7`):
append `p` copies of the byte `p` where `p = 16 - len(data) % 16`. -/
def pkcs7pad (data : List Nat) : List Nat :=
  let padLen := BLOCK_SIZE - data.length % BLOCK_SIZE
  data ++ List.replicate padLen padLen

/-- PKCS#7 unpadding (`Crypto.Util.Padding.unpad`, style `pkcs7`):
checks length and trailing padding bytes, raising `ValueError` on
malformed padding. -/
def pkcs7unpad (data : List Nat) : Except String (List Nat) :=
  if data.length = 0 then .error "Zero-length input cannot be unpadded"
  else if data.length % BLOCK_SIZE ≠ 0 then .error "Input data is not padded"
  else
    let padLen := data.getLast!
    if padLen < 1 ∨ padLen > min BLOCK_SIZE data.length then
      .error "Padding is incorrect."
    else if data.drop (data.length - padLen) ≠ List.replicate padLen padLen then
      .error "PKCS#7 padding is incorrect."
    else .ok (data.take (data.length - padLen))

/-- CBC-mode encryption of a (padded) byte string with block cipher `E`:
each plaintext block is XORed with the previous ciphertext block (the IV
for the first) before being enciphered. -/
def cbcEncrypt (E : List Nat → List Nat → List Nat) (key iv data : List Nat) :
    List Nat :=
  if data.isEmpty then []
  else
    let c := E key (bxor iv (data.take BLOCK_SIZE))
    c ++ cbcEncrypt E key c (data.drop BLOCK_SIZE)
termination_by data.length
decreasing_by
  rename_i h
  simp [List.isEmpty_iff] at h
  have : 0 < data.length := List.length_pos.mpr h
  simp [List.length_drop, BLOCK_SIZE]
  omega

/-- CBC-mode decryption with block cipher inverse `D`. -/
def cbcDecrypt (D : List Nat → List Nat → List Nat) (key iv data : List Nat) :
    List Nat :=
  if data.isEmpty then []
  else
    let c := data.take BLOCK_SIZE
    bxor iv (D key c) ++ cbcDecrypt D key c (data.drop BLOCK_SIZE)
termination_by data.length
decreasing_by
  rename_i h
  simp [List.isEmpty_iff] at h
  have : 0 < data.length := List.length_pos.mpr h
  simp [List.length_drop, BLOCK_SIZE]
  omega

/-- `encrypt_chunk(data, key)`: `ValueError` unless the key is 32 bytes;
otherwise `iv ++ AES-CBC(pad(data))` with the IV prepended. -/
def encrypt_chunk (E : List Nat → List Nat → List Nat) (iv : List Nat)
    (data key : List Nat) : Except String (List Nat) :=
  if key.length ≠ KEY_SIZE then .error "Key must be 32 bytes"
  else .ok (iv ++ cbcEncrypt E key iv (pkcs7pad data))

/-- `decrypt_chunk(data, key)`: `ValueError` unless the key is 32 bytes
and the input holds at least an IV plus one block; otherwise strips the
16-byte IV, CBC-decrypts and removes the PKCS#7 padding. -/
def decrypt_chunk (D : List Nat → List Nat → List Nat)
    (data key : List Nat) : Except String (List Nat) :=
  if key.length ≠ KEY_SIZE then .error "Key must be 32 bytes"
  else if data.length < IV_SIZE + BLOCK_SIZE then
    .error "Encrypted data is too short to contain IV and block"
  else
    pkcs7unpad (cbcDecrypt D key (data.take IV_SIZE) (data.drop IV_SIZE))

lemma bxor_length (a b : List Nat) : (bxor a b).length = min a.length b.length := by
  simp [bxor]

lemma bxor_cancel (a b : List Nat) (h : a.length = b.length) :
    bxor a (bxor a b) = b := by
  induction a generalizing b with
  | nil => cases b with
    | nil => rfl
    | cons x xs => simp at h
  | cons x xs ih =>
    cases b with
    | nil => simp at h
    | cons y ys =>
      simp only [bxor, List.zipWith_cons_cons] at *
      have hx : x.xor (x.xor y) = y := by
        rw [show x.xor (x.xor y) = x ^^^ (x ^^^ y) from rfl,
          ← Nat.xor_assoc, Nat.xor_self, Nat.zero_xor]
      simp only [List.length_cons] at h
      rw [hx, ih ys (by omega)]

lemma pkcs7pad_length_mod (data : List Nat) :
    (pkcs7pad data).length % BLOCK_SIZE = 0 := by
  simp only [pkcs7pad, List.length_append, List.length_replicate, BLOCK_SIZE]
  omega

lemma cbcEncrypt_length (E : List Nat → List Nat → List Nat) (key : List Nat)
    (hE : ∀ b : List Nat, b.length = 16 → (E key b).length = 16) :
    ∀ (m : Nat) (iv p : List Nat), iv.length = 16 →
      p.length = 16 * m → (cbcEncrypt E key iv p).length = p.length := by
  intro m
  induction m with
  | zero =>
    intro iv p _ hp
    have : p = [] := List.eq_nil_of_length_eq_zero (by omega)
    subst this
    rw [cbcEncrypt]
    simp
  | succ m ih =>
    intro iv p hiv hp
    have hpe : p.isEmpty = false := by
      rw [List.isEmpty_eq_false_iff_exists_mem]
      exact List.exists_mem_of_length_pos (by omega)
    have htl : (p.take BLOCK_SIZE).length = 16 := by
      simp [List.length_take, BLOCK_SIZE]
      omega
    have hbl : (bxor iv (p.take BLOCK_SIZE)).length = 16 := by
      rw [bxor_length, htl, hiv]; simp
    have hcl : (E key (bxor iv (p.take BLOCK_SIZE))).length = 16 := hE _ hbl
    rw [cbcEncrypt]
    simp only [hpe, Bool.false_eq_true, if_false, List.length_append, hcl]
    rw [ih _ (p.drop BLOCK_SIZE) hcl
      (by simp [List.length_drop, BLOCK_SIZE]; omega)]
    simp [List.length_drop, BLOCK_SIZE]
    omega

lemma cbc_roundtrip (E D : List Nat → List Nat → List Nat) (key : List Nat)
    (hE : ∀ b : List Nat, b.length = 16 → (E key b).length = 16)
    (hD : ∀ b : List Nat, b.length = 16 → D key (E key b) = b) :
    ∀ (m : Nat) (iv p : List Nat), iv.length = 16 →
      p.length = 16 * m →
      cbcDecrypt D key iv (cbcEncrypt E key iv p) = p := by
  intro m
  induction m with
  | zero =>
    intro iv p _ hp
    have : p = [] := List.eq_nil_of_length_eq_zero (by omega)
    subst this
    rw [cbcEncrypt, cbcDecrypt]
    simp
  | succ m ih =>
    intro iv p hiv hp
    have hpe : p.isEmpty = false := by
      rw [List.isEmpty_eq_false_iff_exists_mem]
      exact List.exists_mem_of_length_pos (by omega)
    have htl : (p.take BLOCK_SIZE).length = 16 := by
      simp [List.length_take, BLOCK_SIZE]
      omega
    have hbl : (bxor iv (p.take BLOCK_SIZE)).length = 16 := by
      rw [bxor_length, htl, hiv]; simp
    set c := E key (bxor iv (p.take BLOCK_SIZE)) with hc
    have hcl : c.length = 16 := hE _ hbl
    have hcl' : c.length = BLOCK_SIZE := hcl
    have happ : (c ++ cbcEncrypt E key c (p.drop BLOCK_SIZE)).isEmpty = false := by
      rw [List.isEmpty_eq_false_iff_exists_mem]
      exact ⟨c.head (by intro h; rw [h] at hcl; simp at hcl),
        List.mem_append_left _ (List.head_mem _)⟩
    rw [cbcEncrypt]
    simp only [hpe, Bool.false_eq_true, if_false]
    rw [cbcDecrypt]
    simp only [happ, Bool.false_eq_true, if_false]
    rw [List.take_left' hcl', List.drop_left' hcl', ← hc, hD _ hbl,
      bxor_cancel iv (p.take BLOCK_SIZE) (by omega),
      ih c (p.drop BLOCK_SIZE) hcl
        (by simp [List.length_drop, BLOCK_SIZE]; omega),
      List.take_append_drop]

lemma pkcs7_unpad_pad (data : List Nat) :
    pkcs7unpad (pkcs7pad data) = Except.ok data := by
  set p := BLOCK_SIZE - data.length % BLOCK_SIZE with hpdef
  have hBS : BLOCK_SIZE = 16 := rfl
  have hmod : data.length % BLOCK_SIZE < 16 := by
    rw [hBS]; exact Nat.mod_lt _ (by omega)
  have hp1 : 1 ≤ p := by rw [hpdef, hBS]; rw [hBS] at hmod; omega
  have hp16 : p ≤ 16 := by rw [hpdef, hBS]; omega
  have hlen : (pkcs7pad data).length = data.length + p := by
    simp [pkcs7pad, List.length_append, List.length_replicate, ← hpdef]
  have hlast : (pkcs7pad data).getLast! = p := by
    apply List.getLast!_of_getLast?
    rw [pkcs7pad]
    simp only [← hpdef, List.getLast?_append, List.getLast?_replicate]
    have : ¬ p = 0 := by omega
    simp [this]
  rw [pkcs7unpad]
  rw [if_neg (by omega), if_neg (by simp [pkcs7pad_length_mod data]), hlast]
  rw [if_neg (by rw [hlen, hBS]; omega)]
  have hdrop : (pkcs7pad data).drop ((pkcs7pad data).length - p) =
      List.replicate p p := by
    rw [hlen, pkcs7pad, ← hpdef]
    have : data.length + p - p = data.length := by omega
    rw [this, List.drop_left' rfl]
  rw [if_neg (by rw [hdrop]; simp)]
  rw [hlen, pkcs7pad, ← hpdef]
  have : data.length + p - p = data.length := by omega
  rw [this, List.take_left' rfl]

/-- C2: decryption with the correct 32-byte key recovers the encrypted
chunk bit-exactly.  The AES block maps `E` (encrypt) and `D` (decrypt)
are the PyCryptodome primitives, assumed to be mutually inverse,
block-length-preserving maps on 16-byte blocks; the random IV is
passed explicitly. -/
theorem encrypt_decrypt_roundtrip (E D : List Nat → List Nat → List Nat)
    (key iv data : List Nat)
    (hk : key.length = KEY_SIZE) (hiv : iv.length = IV_SIZE)
    (hE : ∀ b : List Nat, b.length = 16 → (E key b).length = 16)
    (hD : ∀ b : List Nat, b.length = 16 → D key (E key b) = b) :
    ∃ ct, encrypt_chunk E iv data key = Except.ok ct ∧
          decrypt_chunk D ct key = Except.ok data := by
  have hiv' : iv.length = 16 := hiv
  have hBS : BLOCK_SIZE = 16 := rfl
  obtain ⟨m, hm⟩ : ∃ m, (pkcs7pad data).length = 16 * m := by
    have := pkcs7pad_length_mod data
    rw [hBS] at this
    exact ⟨(pkcs7pad data).length / 16, by omega⟩
  have hpadpos : 1 ≤ (pkcs7pad data).length := by
    simp only [pkcs7pad, List.length_append, List.length_replicate, hBS]
    have : data.length % 16 < 16 := Nat.mod_lt _ (by omega)
    omega
  have hm1 : 1 ≤ m := by by_contra hcon; push_neg at hcon; omega
  have hctlen : (cbcEncrypt E key iv (pkcs7pad data)).length =
      (pkcs7pad data).length := cbcEncrypt_length E key hE m iv _ hiv' hm
  refine ⟨iv ++ cbcEncrypt E key iv (pkcs7pad data), ?_, ?_⟩
  · simp [encrypt_chunk, hk, KEY_SIZE]
  · rw [decrypt_chunk, if_neg (by simp [hk])]
    rw [if_neg (by
      simp only [List.length_append, hiv, hctlen, IV_SIZE, BLOCK_SIZE]
      push_neg
      omega)]
    rw [show (IV_SIZE : Nat) = iv.length from hiv.symm, List.take_left,
      List.drop_left, cbc_roundtrip E D key hE hD m iv _ hiv' hm,
      pkcs7_unpad_pad]

/-- Concrete instance of the crypto round-trip: identity block maps,
all-zero key and IV, a 3-byte chunk. -/
theorem encrypt_decrypt_roundtrip_witness :
    ∃ ct, encrypt_chunk (fun _ b => b) (List.replicate 16 0) [1, 2, 3]
            (List.replicate 32 0) = Except.ok ct ∧
          decrypt_chunk (fun _ b => b) ct (List.replicate 32 0) =
            Except.ok [1, 2, 3] :=
  encrypt_decrypt_roundtrip (fun _ b => b) (fun _ b => b)
    (List.replicate 32 0) (List.replicate 16 0) [1, 2, 3]
    (by decide) (by decide) (fun b hb => hb) (fun b _ => rfl)

/-! ## Merkle tree (`src/gateway/core/merkle.py`)

`_hash_pair(left, right) = sha256(fromhex(left) ++ fromhex(right)).hexdigest()`
is modelled as an opaque parameter `H2 : String → String → String`.
Digests are hex strings. -/

/-- One pass of `_build_tree`'s inner loop: pair adjacent nodes,
duplicating a trailing odd node (`right = level[i+1] if i+1 < len else
left`). -/
def pairUp (H2 : String → String → String) : List String → List String
  | [] => []
  | [x] => [H2 x x]
  | x :: y :: rest => H2 x y :: pairUp H2 rest

lemma pairUp_length (H2 : String → String → String) :
    ∀ l : List String, (pairUp H2 l).length = (l.length + 1) / 2 := by
  intro l
  induction l using pairUp.induct H2 with
  | case1 => simp [pairUp]
  | case2 x => simp [pairUp]
  | case3 x y rest ih =>
    simp only [pairUp, List.length_cons, ih]
    omega

/-- `_build_tree`: all levels from the leaves (level 0) up to the root
level.  The Python loop runs `while len(current_level) > 1`, appending
each successive `pairUp` level. -/
def buildLevels (H2 : String → String → String) (level : List String) :
    List (List String) :=
  if level.length ≤ 1 then [level]
  else level :: buildLevels H2 (pairUp H2 level)
termination_by level.length
decreasing_by
  rename_i h
  rw [pairUp_length]
  omega

lemma buildLevels_ne_nil (H2 : String → String → String) (level : List String) :
    buildLevels H2 level ≠ [] := by
  rw [buildLevels]
  split <;> simp

/-- `tree.root = levels[-1][0]`. -/
def merkleRoot (H2 : String → String → String) (leaves : List String) : String :=
  ((buildLevels H2 leaves).getLast!).head!

/-- The loop body of `get_proof`, walking `levels[:-1]` while halving the
index: emit the sibling digest with its side. -/
def proofLoop : List (List String) → Nat → List (String × String)
  | [], _ => []
  | level :: rest, i =>
    (if i % 2 = 0 then
       (if i + 1 < level.length then (level[i + 1]!, "right")
        else (level[i]!, "right"))
     else (level[i - 1]!, "left")) :: proofLoop rest (i / 2)

/-- `get_proof(index)`: `IndexError` when the index is out of range
(a Python `int` below 0 cannot occur for `Nat`), else the authentication
path from `levels[:-1]`. -/
def get_proof (H2 : String → String → String) (leaves : List String)
    (index : Nat) : Except String (List (String × String)) :=
  if index < leaves.length then
    .ok (proofLoop (buildLevels H2 leaves).dropLast index)
  else .error "Leaf index out of range"

/-- The fold of `verify_proof`: combine the running hash with each
sibling on the stated side. -/
def chainHash (H2 : String → String → String) (leaf : String)
    (proof : List (String × String)) : String :=
  proof.foldl
    (fun cur p => if p.2 = "left" then H2 p.1 cur else H2 cur p.1) leaf

/-- `verify_proof(leaf_hash, proof, expected_root)`: recompute the root
from the path and compare. -/
def verify_proof (H2 : String → String → String) (leaf_hash : String)
    (proof : List (String × String)) (expected_root : String) : Bool :=
  chainHash H2 leaf_hash proof == expected_root

/-- `pairUp` at index `i / 2` combines node `i` with its sibling exactly
as `get_proof` reports it. -/
lemma pairUp_get (H2 : String → String → String) :
    ∀ (l : List String) (i : Nat), i < l.length →
      (pairUp H2 l)[i / 2]! =
        if i % 2 = 0 then
          (if i + 1 < l.length then H2 l[i]! l[i + 1]! else H2 l[i]! l[i]!)
        else H2 l[i - 1]! l[i]! := by
  intro l
  induction l using pairUp.induct H2 with
  | case1 => intro i hi; simp at hi
  | case2 x =>
    intro i hi
    have h0 : i = 0 := by simp at hi; omega
    subst h0
    simp [pairUp]
  | case3 x y rest ih =>
    intro i hi
    match i, hi with
    | 0, _ => simp [pairUp]
    | 1, _ => simp [pairUp]
    | (j + 2), hj =>
      have hj' : j < rest.length := by
        simp only [List.length_cons] at hj
        omega
      have hdiv : (j + 2) / 2 = j / 2 + 1 := by omega
      have hmod : (j + 2) % 2 = j % 2 := by omega
      rw [hdiv, hmod]
      simp only [pairUp, List.getElem!_cons_succ]
      rw [ih j hj']
      have hlen : (x :: y :: rest).length = rest.length + 2 := by simp
      by_cases hpar : j % 2 = 0
      · simp only [hpar, if_true]
        have : j + 2 + 1 < (x :: y :: rest).length ↔ j + 1 < rest.length := by
          simp; omega
        by_cases hin : j + 1 < rest.length
        · rw [if_pos hin, if_pos (by simp; omega)]
          try simp [List.getElem!_cons_succ]
        · rw [if_neg hin, if_neg (by simp; omega)]
          try simp [List.getElem!_cons_succ]
      · simp only [hpar, if_false, if_neg hpar]
        have : j + 2 - 1 = (j - 1) + 2 := by omega
        rw [this]
        simp [List.getElem!_cons_succ]

lemma getLast!_cons_of_ne_nil {α : Type} [Inhabited α] (x : α) (l : List α)
    (h : l ≠ []) : (x :: l).getLast! = l.getLast! := by
  obtain ⟨y, ys, rfl⟩ := List.exists_cons_of_ne_nil h
  rw [List.getLast!_cons, List.getLast!_cons, List.getLastD_cons]

/-- Walking the authentication path from any leaf recomputes the root. -/
lemma chainHash_to_root (H2 : String → String → String) :
    ∀ (level : List String) (i : Nat), i < level.length →
      chainHash H2 level[i]! (proofLoop (buildLevels H2 level).dropLast i) =
        merkleRoot H2 level := by
  intro level
  induction level using buildLevels.induct H2 with
  | case1 level hle =>
    intro i hi
    have h0 : i = 0 := by omega
    subst h0
    rw [buildLevels, if_pos hle]
    obtain ⟨x, xs, rfl⟩ := List.exists_cons_of_ne_nil
      (List.ne_nil_of_length_pos hi)
    have hxs : xs = [] := by
      simp only [List.length_cons] at hle
      exact List.eq_nil_of_length_eq_zero (by omega)
    subst hxs
    simp only [proofLoop, chainHash, List.foldl_nil, List.dropLast_single]
    rw [merkleRoot, buildLevels, if_pos hle]
    rfl
  | case2 level hgt ih =>
    intro i hi
    have hne : buildLevels H2 (pairUp H2 level) ≠ [] := buildLevels_ne_nil H2 _
    obtain ⟨b, bs, hB⟩ :=
      List.exists_cons_of_ne_nil hne
    rw [buildLevels, if_neg hgt]
    have hdl : (level :: buildLevels H2 (pairUp H2 level)).dropLast =
        level :: (buildLevels H2 (pairUp H2 level)).dropLast := by
      rw [hB, List.dropLast_cons₂]
    rw [hdl]
    have hi2 : i / 2 < (pairUp H2 level).length := by
      rw [pairUp_length]
      omega
    have hstep :
        chainHash H2 level[i]!
            (proofLoop
              (level :: (buildLevels H2 (pairUp H2 level)).dropLast) i) =
          chainHash H2 (pairUp H2 level)[i / 2]!
            (proofLoop (buildLevels H2 (pairUp H2 level)).dropLast (i / 2)) := by
      rw [proofLoop, chainHash]
      rw [List.foldl_cons]
      rw [pairUp_get H2 level i hi]
      by_cases hpar : i % 2 = 0
      · simp only [hpar, if_true]
        by_cases hin : i + 1 < level.length
        · rw [if_pos hin, if_pos hin]
          rfl
        · rw [if_neg hin, if_neg hin]
          rfl
      · simp only [hpar, if_false, if_neg hpar]
        rfl
    rw [hstep, ih (i / 2) hi2]
    show merkleRoot H2 (pairUp H2 level) = merkleRoot H2 level
    rw [merkleRoot, merkleRoot]
    conv_rhs => rw [buildLevels]
    rw [if_neg hgt, getLast!_cons_of_ne_nil _ _ hne]

/-- C3: for every non-empty digest list and every in-range leaf index,
the authentication path produced by `get_proof` verifies against the
tree root; and the root of a single-leaf tree is that leaf.  `H2` is the
SHA-256 pair hash `_hash_pair`, treated as opaque. -/
theorem merkle_proof_verifies (H2 : String → String → String)
    (leaves : List String) (i : Nat) (h : i < leaves.length) :
    (∃ p, get_proof H2 leaves i = Except.ok p ∧
          verify_proof H2 leaves[i]! p (merkleRoot H2 leaves) = true)
    ∧ (∀ x : String, merkleRoot H2 [x] = x) := by
  constructor
  · refine ⟨proofLoop (buildLevels H2 leaves).dropLast i, ?_, ?_⟩
    · rw [get_proof, if_pos h]
    · rw [verify_proof, chainHash_to_root H2 leaves i h]
      exact beq_self_eq_true _
  · intro x
    rw [merkleRoot, buildLevels]
    simp only [List.length_cons, List.length_nil, if_pos (by omega : (1:Nat) ≤ 1)]
    rfl

/-- Concrete instance of Merkle verification: three leaves, proof for
leaf 2, pair hash instantiated with string concatenation. -/
theorem merkle_proof_verifies_witness :
    (∃ p, get_proof (fun a b => a ++ b) ["a", "b", "c"] 2 = Except.ok p ∧
          verify_proof (fun a b => a ++ b) (["a", "b", "c"])[2]! p
            (merkleRoot (fun a b => a ++ b) ["a", "b", "c"]) = true)
    ∧ (∀ x : String, merkleRoot (fun a b => a ++ b) [x] = x) :=
  merkle_proof_verifies (fun a b => a ++ b) ["a", "b", "c"] 2 (by decide)

/-! ## DHT routing table (`src/dht_tracker/services/routing_table.py`)

`time.time()` timestamps are passed in explicitly as `now : Int`;
`int(hashlib.sha256(id).hexdigest(), 16)` is the opaque parameter
`Hid : String → Nat`.  Python dicts are insertion-ordered association
lists; Python sets of peer ids are duplicate-free lists. -/

/-- `NodeInfo`: a storage node record. -/
structure NodeInfo where
  node_id : String
  address : String
  last_seen : Int
  chunks : List String
deriving DecidableEq

instance : Inhabited NodeInfo := ⟨⟨"", "", 0, []⟩⟩

/-- `_xor_distance`: XOR of the 256-bit hashes of the two identifiers. -/
def xor_distance (Hid : String → Nat) (id_a id_b : String) : Nat :=
  Nat.xor (Hid id_a) (Hid id_b)

/-- The in-memory state of a `RoutingTable`. -/
structure RoutingTable where
  nodes : List (String × NodeInfo)
  chunk_locations : List (String × List String)
  stale_timeout : Int
deriving DecidableEq

/-- First value stored under a key (Python `dict` lookup). -/
def dictFind {β : Type} (k : String) : List (String × β) → Option β
  | [] => none
  | e :: rest => if e.1 = k then some e.2 else dictFind k rest

/-- In-place update of the values stored under a key. -/
def dictUpdate {β : Type} (k : String) (f : β → β) :
    List (String × β) → List (String × β) :=
  List.map (fun e => if e.1 = k then (e.1, f e.2) else e)

/-- Python `set.add` on a duplicate-free list. -/
def setAdd (x : String) (s : List String) : List String :=
  if x ∈ s then s else s ++ [x]

/-- `register_node`: upsert preserving dict insertion order; a new node
gets `last_seen = now` and an empty chunk set, an existing one keeps its
chunks and has address and `last_seen` refreshed. -/
def register_node (rt : RoutingTable) (now : Int) (node_id address : String) :
    RoutingTable :=
  match dictFind node_id rt.nodes with
  | some _ =>
      { rt with nodes := (dictUpdate node_id
          (fun n => { n with address := address, last_seen := now }) rt.nodes) }
  | none =>
      { rt with nodes :=
          (rt.nodes ++ [(node_id, ⟨node_id, address, now, []⟩)]) }

/-- `heartbeat`: refresh `last_seen`, reporting whether the node exists. -/
def heartbeat (rt : RoutingTable) (now : Int) (node_id : String) :
    RoutingTable × Bool :=
  match dictFind node_id rt.nodes with
  | some _ =>
      ({ rt with nodes := (dictUpdate node_id
          (fun n => { n with last_seen := now }) rt.nodes) }, true)
  | none => (rt, false)

/-- Is this node past the stale timeout (`now - last_seen > stale_timeout`)? -/
def isStale (rt : RoutingTable) (now : Int) (n : NodeInfo) : Prop :=
  now - n.last_seen > rt.stale_timeout

instance (rt : RoutingTable) (now : Int) (n : NodeInfo) :
    Decidable (isStale rt now n) := by unfold isStale; infer_instance

/-- One stale node's cascade over the chunk index: discard the node id
from every peer set and delete entries that become empty. -/
def discardPeer (nid : String) (locs : List (String × List String)) :
    List (String × List String) :=
  (locs.map (fun e => (e.1, e.2.filter (· ≠ nid)))).filter
    (fun e => ¬ e.2.isEmpty)

/-- `remove_stale_nodes` (the `sweep`): compute the stale ids with a fixed
`now`, cascade each over the chunk index, and drop them from the node
table; returns the evicted ids as the Python function does. -/
def remove_stale_nodes (rt : RoutingTable) (now : Int) :
    RoutingTable × List String :=
  let staleIds := (rt.nodes.filter (fun e => isStale rt now e.2)).map (·.1)
  ({ rt with
      nodes := rt.nodes.filter (fun e => ¬ isStale rt now e.2),
      chunk_locations :=
        staleIds.foldl (fun locs nid => discardPeer nid locs)
          rt.chunk_locations },
    staleIds)

/-- `get_active_nodes`: sweep, then list the registered node records. -/
def get_active_nodes (rt : RoutingTable) (now : Int) :
    RoutingTable × List NodeInfo :=
  let rt' := (remove_stale_nodes rt now).1
  (rt', rt'.nodes.map (·.2))

/-- Stable insertion (an element is placed before the first existing
element with a key not smaller than its own), modelling the stability
of Python's `sorted`. -/
def insertStable {α : Type} (key : α → Nat) (x : α) : List α → List α
  | [] => [x]
  | y :: ys => if key x ≤ key y then x :: y :: ys else y :: insertStable key x ys

/-- Stable sort by a `Nat` key, modelling `sorted(..., key=...)`. -/
def sortStable {α : Type} (key : α → Nat) : List α → List α
  | [] => []
  | x :: xs => insertStable key x (sortStable key xs)

/-- `lookup_nodes`: sweep, then the first `k` nodes sorted by XOR
distance of their hashed ids to the hashed target. -/
def lookup_nodes (Hid : String → Nat) (rt : RoutingTable) (now : Int)
    (target_hash : String) (k : Nat) : RoutingTable × List NodeInfo :=
  let rt' := (remove_stale_nodes rt now).1
  if rt'.nodes.isEmpty then (rt', [])
  else
    (rt',
      (sortStable (fun n => xor_distance Hid n.node_id target_hash)
        (rt'.nodes.map (·.2))).take k)

/-- `store_chunk_location`: record the chunk on the node (unconditional)
and, when the node is registered, add the chunk to its chunk set. -/
def store_chunk_location (rt : RoutingTable) (chunk_hash node_id : String) :
    RoutingTable :=
  { rt with
    nodes := (match dictFind node_id rt.nodes with
      | some _ => dictUpdate node_id
          (fun n => { n with chunks := setAdd chunk_hash n.chunks }) rt.nodes
      | none => rt.nodes),
    chunk_locations := (match dictFind chunk_hash rt.chunk_locations with
      | some _ => dictUpdate chunk_hash (setAdd node_id) rt.chunk_locations
      | none => rt.chunk_locations ++ [(chunk_hash, [node_id])]) }

/-- `get_chunk_locations`: sweep, then resolve the peer-id set of the
chunk against the node table. -/
def get_chunk_locations (rt : RoutingTable) (now : Int) (chunk_hash : String) :
    RoutingTable × List NodeInfo :=
  let rt' := (remove_stale_nodes rt now).1
  (rt',
    ((dictFind chunk_hash rt'.chunk_locations).getD []).filterMap
      (fun nid => dictFind nid rt'.nodes))

/-- `POST /chunks/announce` (`announce_chunk` in
`src/dht_tracker/api/routes.py`): 404 `UnknownPeer` when the node is not
registered, else `store_chunk_location`. -/
def announce_chunk (rt : RoutingTable) (chunk_hash node_id : String) :
    Except String RoutingTable :=
  match dictFind node_id rt.nodes with
  | none => .error ("Node " ++ node_id ++ " not registered")
  | some _ => .ok (store_chunk_location rt chunk_hash node_id)

lemma insertStable_perm {α : Type} (key : α → Nat) (x : α) (l : List α) :
    (insertStable key x l).Perm (x :: l) := by
  induction l with
  | nil => simp [insertStable]
  | cons y ys ih =>
    rw [insertStable]
    by_cases h : key x ≤ key y
    · rw [if_pos h]
    · rw [if_neg h]
      exact (ih.cons y).trans (List.Perm.swap x y ys)

lemma sortStable_perm {α : Type} (key : α → Nat) (l : List α) :
    (sortStable key l).Perm l := by
  induction l with
  | nil => simp [sortStable]
  | cons x xs ih =>
    rw [sortStable]
    exact (insertStable_perm key x (sortStable key xs)).trans (ih.cons x)

lemma insertStable_pairwise {α : Type} (key : α → Nat) (x : α) (l : List α)
    (h : l.Pairwise (fun a b => key a ≤ key b)) :
    (insertStable key x l).Pairwise (fun a b => key a ≤ key b) := by
  induction l with
  | nil => simp [insertStable]
  | cons y ys ih =>
    rw [List.pairwise_cons] at h
    rw [insertStable]
    by_cases hxy : key x ≤ key y
    · rw [if_pos hxy]
      refine List.Pairwise.cons ?_ (List.Pairwise.cons h.1 h.2)
      intro z hz
      rcases List.mem_cons.mp hz with rfl | hz
      · exact hxy
      · exact hxy.trans (h.1 z hz)
    · rw [if_neg hxy]
      refine List.Pairwise.cons ?_ (ih h.2)
      intro z hz
      have hz' := (insertStable_perm key x ys).mem_iff.mp hz
      rcases List.mem_cons.mp hz' with rfl | hz'
      · omega
      · exact h.1 z hz'

lemma sortStable_pairwise {α : Type} (key : α → Nat) (l : List α) :
    (sortStable key l).Pairwise (fun a b => key a ≤ key b) := by
  induction l with
  | nil => simp [sortStable]
  | cons x xs ih => exact insertStable_pairwise key x _ ih

lemma sublist_insertStable {α : Type} (key : α → Nat) (a : α) (l : List α) :
    List.Sublist l (insertStable key a l) := by
  induction l with
  | nil => simp [insertStable]
  | cons y ys ih =>
    rw [insertStable]
    by_cases h : key a ≤ key y
    · rw [if_pos h]
      exact (List.Sublist.refl (y :: ys)).cons a
    · rw [if_neg h]
      exact ih.cons₂ y

lemma insertStable_pair {α : Type} (key : α → Nat) (x y : α) (l : List α)
    (hmem : y ∈ l) (hkey : key x ≤ key y) :
    List.Sublist [x, y] (insertStable key x l) := by
  induction l with
  | nil => simp at hmem
  | cons z zs ih =>
    rw [insertStable]
    by_cases h : key x ≤ key z
    · rw [if_pos h]
      exact (List.singleton_sublist.mpr hmem).cons₂ x
    · rw [if_neg h]
      rcases List.mem_cons.mp hmem with rfl | hmem'
      · omega
      · exact (ih hmem').cons z

/-- Stability of the sort: two elements whose keys are in
(non-strictly) sorted relative position keep their input order. -/
lemma sortStable_stable {α : Type} (key : α → Nat) (x y : α) :
    ∀ l : List α, List.Sublist [x, y] l → key x ≤ key y →
      List.Sublist [x, y] (sortStable key l) := by
  intro l
  induction l with
  | nil => intro h _; simp at h
  | cons a xs ih =>
    intro h hkey
    rw [sortStable]
    rcases List.sublist_cons_iff.mp h with h' | ⟨r, hr, hrs⟩
    · exact (ih h' hkey).trans (sublist_insertStable key a _)
    · injection hr with h1 h2
      subst h2
      subst h1
      have hy : y ∈ sortStable key xs :=
        (sortStable_perm key xs).mem_iff.mpr (List.singleton_sublist.mp hrs)
      exact insertStable_pair key x y _ hy hkey

/-- The ordering property the spec claims for `lookup_nodes`: ascending
XOR distance with ties broken by lexicographic order of the peer id. -/
def sortedByDistThenId (Hid : String → Nat) (target : String)
    (l : List NodeInfo) : Prop :=
  l.Pairwise (fun a b =>
    xor_distance Hid a.node_id target < xor_distance Hid b.node_id target ∨
    (xor_distance Hid a.node_id target = xor_distance Hid b.node_id target ∧
      a.node_id ≤ b.node_id))

/-- A registration-order routing table used to exhibit the tie-break
behaviour: node "b" registered before node "a", constant id hash. -/
def tieTable : RoutingTable :=
  register_node (register_node ⟨[], [], 60⟩ 0 "b" "addrB") 0 "a" "addrA"

/-- C5, counterexample: with two equidistant peers (the id hash is
constant, as can happen for SHA-256 only at a collision), `lookup_nodes`
returns them in registration order "b", "a" — Python's `sorted` is
stable and uses the distance alone as key — which violates the claimed
lexicographic tie-break, since "a" < "b". -/
theorem lookup_nodes_tiebreak_counterexample :
    ((lookup_nodes (fun _ => 0) tieTable 0 "t" 2).2.map (·.node_id)
        = ["b", "a"]) ∧
    ¬ sortedByDistThenId (fun _ => 0) "t"
        (lookup_nodes (fun _ => 0) tieTable 0 "t" 2).2 := by
  constructor
  · rfl
  · intro h
    have hres : (lookup_nodes (fun _ => 0) tieTable 0 "t" 2).2 =
        [⟨"b", "addrB", 0, []⟩, ⟨"a", "addrA", 0, []⟩] := by rfl
    rw [hres, sortedByDistThenId, List.pairwise_cons] at h
    have := h.1 ⟨"a", "addrA", 0, []⟩ (by simp)
    rcases this with hlt | ⟨_, hle⟩
    · simp [xor_distance] at hlt
    · have hab : ("a" : String) < "b" := by
        rw [String.lt_iff_toList_lt]
        decide
      exact absurd hle (not_le.mpr hab)

/-- C5, amended: `lookup_nodes` returns up to `k` active peers sorted by
ascending XOR distance of hashed ids; peers at equal distance stay in
table (registration) order, because Python's `sorted` is stable and the
sort key is the distance alone — not the lexicographic peer-id order the
spec claims. -/
theorem lookup_nodes_sorted (Hid : String → Nat) (rt : RoutingTable)
    (now : Int) (target : String) (k : Nat) :
    (lookup_nodes Hid rt now target k).2.length ≤ k ∧
    (∀ n ∈ (lookup_nodes Hid rt now target k).2,
      n ∈ (remove_stale_nodes rt now).1.nodes.map (·.2)) ∧
    (lookup_nodes Hid rt now target k).2.Pairwise (fun a b =>
      xor_distance Hid a.node_id target ≤ xor_distance Hid b.node_id target) ∧
    (∀ a b, xor_distance Hid a.node_id target ≤ xor_distance Hid b.node_id target →
      List.Sublist [a, b] ((remove_stale_nodes rt now).1.nodes.map (·.2)) →
      List.Sublist [a, b]
        (sortStable (fun n => xor_distance Hid n.node_id target)
          ((remove_stale_nodes rt now).1.nodes.map (·.2))) ∧
      (lookup_nodes Hid rt now target k).2 =
        (sortStable (fun n => xor_distance Hid n.node_id target)
          ((remove_stale_nodes rt now).1.nodes.map (·.2))).take k) := by
  set key := fun n : NodeInfo => xor_distance Hid n.node_id target with hkey
  set active := (remove_stale_nodes rt now).1.nodes.map (·.2) with hactive
  by_cases hemp : (remove_stale_nodes rt now).1.nodes.isEmpty
  · have hres : (lookup_nodes Hid rt now target k).2 = [] := by
      rw [lookup_nodes]
      simp only [hemp, if_pos]
    have hanil : active = [] := by
      rw [hactive, List.isEmpty_iff.mp hemp]
      rfl
    refine ⟨by simp [hres], by simp [hres], by simp [hres], ?_⟩
    intro a b _ hsub
    rw [hanil] at hsub
    exact absurd (List.sublist_nil.mp hsub) (by simp)
  · have hres : (lookup_nodes Hid rt now target k).2 =
        (sortStable key active).take k := by
      rw [lookup_nodes]
      simp only [hemp, Bool.false_eq_true, if_false]
    refine ⟨?_, ?_, ?_, ?_⟩
    · rw [hres]
      simp [List.length_take_le k]
    · intro n hn
      rw [hres] at hn
      have : n ∈ sortStable key active :=
        List.mem_of_mem_take hn
      exact (sortStable_perm key active).mem_iff.mp this
    · rw [hres]
      exact (sortStable_pairwise key active).sublist (List.take_sublist k _)
    · intro a b hk hsub
      exact ⟨sortStable_stable key a b active hsub hk, hres⟩

/-- Concrete instance of the amended lookup ordering theorem. -/
theorem lookup_nodes_sorted_witness :
    (lookup_nodes (fun s => s.length) tieTable 0 "t" 2).2.length ≤ 2 ∧
    (∀ n ∈ (lookup_nodes (fun s => s.length) tieTable 0 "t" 2).2,
      n ∈ (remove_stale_nodes tieTable 0).1.nodes.map (·.2)) ∧
    (lookup_nodes (fun s => s.length) tieTable 0 "t" 2).2.Pairwise (fun a b =>
      xor_distance (fun s => s.length) a.node_id "t" ≤
        xor_distance (fun s => s.length) b.node_id "t") ∧
    (∀ a b, xor_distance (fun s => s.length) a.node_id "t" ≤
        xor_distance (fun s => s.length) b.node_id "t" →
      List.Sublist [a, b] ((remove_stale_nodes tieTable 0).1.nodes.map (·.2)) →
      List.Sublist [a, b]
        (sortStable (fun n => xor_distance (fun s => s.length) n.node_id "t")
          ((remove_stale_nodes tieTable 0).1.nodes.map (·.2))) ∧
      (lookup_nodes (fun s => s.length) tieTable 0 "t" 2).2 =
        (sortStable (fun n => xor_distance (fun s => s.length) n.node_id "t")
          ((remove_stale_nodes tieTable 0).1.nodes.map (·.2))).take 2) :=
  lookup_nodes_sorted (fun s => s.length) tieTable 0 "t" 2

lemma dictFind_mem {β : Type} (k : String) (l : List (String × β)) (v : β)
    (h : dictFind k l = some v) : (k, v) ∈ l := by
  induction l with
  | nil => simp [dictFind] at h
  | cons e rest ih =>
    rw [dictFind] at h
    by_cases he : e.1 = k
    · rw [if_pos he] at h
      injection h with h
      rw [← he, ← h]
      simp
    · rw [if_neg he] at h
      exact List.mem_cons_of_mem e (ih h)

lemma dictFind_eq_of_mem_nodup {β : Type} (l : List (String × β))
    (e : String × β) (hnd : (l.map (·.1)).Nodup) (he : e ∈ l) :
    dictFind e.1 l = some e.2 := by
  induction l with
  | nil => simp at he
  | cons f rest ih =>
    rw [List.map_cons, List.nodup_cons] at hnd
    rcases List.mem_cons.mp he with rfl | he'
    · rw [dictFind, if_pos rfl]
    · rw [dictFind]
      have hne : f.1 ≠ e.1 := by
        intro hcontra
        exact hnd.1 (hcontra ▸ List.mem_map_of_mem (·.1) he')
      rw [if_neg hne]
      exact ih hnd.2 he'

lemma dictFind_eq_none_of_not_mem_keys {β : Type} (k : String)
    (l : List (String × β)) (h : k ∉ l.map (·.1)) : dictFind k l = none := by
  induction l with
  | nil => rfl
  | cons e rest ih =>
    rw [List.map_cons] at h
    rw [dictFind, if_neg (fun he => h (by rw [← he]; simp))]
    exact ih (fun hm => h (List.mem_cons_of_mem _ hm))

lemma dictFind_filter_none {β : Type} (k : String) (l : List (String × β))
    (v : β) (pred : String × β → Bool)
    (hnd : (l.map (·.1)).Nodup) (h : dictFind k l = some v)
    (hpred : pred (k, v) = false) :
    dictFind k (l.filter pred) = none := by
  apply dictFind_eq_none_of_not_mem_keys
  intro hk
  obtain ⟨e, he, hek⟩ := List.mem_map.mp hk
  have hel : e ∈ l := List.mem_of_mem_filter he
  have hpe : pred e = true := List.of_mem_filter he
  have hfe : dictFind k l = some e.2 := by
    rw [← hek]
    exact dictFind_eq_of_mem_nodup l e hnd hel
  have hv : e.2 = v := by
    have := h.symm.trans hfe
    injection this with h2
    exact h2.symm
  have hekv : e = (k, v) := by
    obtain ⟨e1, e2⟩ := e
    simp only at hek hv
    rw [hek, hv]
  rw [hekv, hpred] at hpe
  cases hpe

lemma discardPeer_absent (nid : String) (locs : List (String × List String)) :
    ∀ e ∈ discardPeer nid locs, nid ∉ e.2 := by
  intro e he
  have := List.mem_of_mem_filter he
  obtain ⟨f, _, rfl⟩ := List.mem_map.mp this
  intro hmem
  have := List.of_mem_filter hmem
  simp at this

lemma discardPeer_preserve_absent (nid other : String)
    (locs : List (String × List String))
    (h : ∀ e ∈ locs, nid ∉ e.2) :
    ∀ e ∈ discardPeer other locs, nid ∉ e.2 := by
  intro e he
  have := List.mem_of_mem_filter he
  obtain ⟨f, hf, rfl⟩ := List.mem_map.mp this
  intro hmem
  exact h f hf (List.mem_of_mem_filter hmem)

lemma discardPeer_nonempty (nid : String) (locs : List (String × List String)) :
    ∀ e ∈ discardPeer nid locs, e.2 ≠ [] := by
  intro e he hnil
  have := List.of_mem_filter he
  rw [hnil] at this
  simp at this

lemma foldl_discard_preserve_absent (nid : String) :
    ∀ (ids : List String) (locs : List (String × List String)),
      (∀ e ∈ locs, nid ∉ e.2) →
      ∀ e ∈ ids.foldl (fun ls q => discardPeer q ls) locs, nid ∉ e.2 := by
  intro ids
  induction ids with
  | nil => intro locs h; exact h
  | cons q rest ih =>
    intro locs h
    rw [List.foldl_cons]
    exact ih _ (discardPeer_preserve_absent nid q locs h)

lemma foldl_discard_absent (nid : String) :
    ∀ (ids : List String) (locs : List (String × List String)),
      nid ∈ ids →
      ∀ e ∈ ids.foldl (fun ls q => discardPeer q ls) locs, nid ∉ e.2 := by
  intro ids
  induction ids with
  | nil => intro locs h; simp at h
  | cons q rest ih =>
    intro locs h
    rw [List.foldl_cons]
    rcases List.mem_cons.mp h with rfl | h'
    · exact foldl_discard_preserve_absent nid rest _
        (discardPeer_absent nid locs)
    · exact ih _ h'

lemma foldl_discard_nonempty :
    ∀ (ids : List String) (locs : List (String × List String)),
      (∀ e ∈ locs, e.2 ≠ []) →
      ∀ e ∈ ids.foldl (fun ls q => discardPeer q ls) locs, e.2 ≠ [] := by
  intro ids
  induction ids with
  | nil => intro locs h; exact h
  | cons q rest ih =>
    intro locs _
    rw [List.foldl_cons]
    exact ih _ (discardPeer_nonempty q locs)

lemma foldl_discard_nonempty_of_ne_nil (ids : List String)
    (locs : List (String × List String)) (h : ids ≠ []) :
    ∀ e ∈ ids.foldl (fun ls q => discardPeer q ls) locs, e.2 ≠ [] := by
  obtain ⟨q, rest, rfl⟩ := List.exists_cons_of_ne_nil h
  rw [List.foldl_cons]
  exact foldl_discard_nonempty rest _ (discardPeer_nonempty q locs)

/-- C7: a peer whose `last_seen` lies more than `stale_timeout` seconds in
the past is absent from the results of `get_active_nodes`, `lookup_nodes`
and `get_chunk_locations` (all of which sweep first), is removed from
every chunk-index entry by the sweep, and every entry whose peer set
becomes empty is deleted.  The hypotheses `hkm`/`hnd` are the dict
invariants of the Python state (values record their own key; dict keys
are unique). -/
theorem stale_peer_evicted (Hid : String → Nat) (rt : RoutingTable)
    (now : Int) (p : String) (info : NodeInfo)
    (hkm : ∀ e ∈ rt.nodes, e.2.node_id = e.1)
    (hnd : (rt.nodes.map (·.1)).Nodup)
    (hp : dictFind p rt.nodes = some info)
    (hstale : now - info.last_seen > rt.stale_timeout)
    (target chunk_hash : String) (k : Nat) :
    (∀ n ∈ (get_active_nodes rt now).2, n.node_id ≠ p) ∧
    (∀ n ∈ (lookup_nodes Hid rt now target k).2, n.node_id ≠ p) ∧
    (∀ n ∈ (get_chunk_locations rt now chunk_hash).2, n.node_id ≠ p) ∧
    (∀ e ∈ (remove_stale_nodes rt now).1.chunk_locations, p ∉ e.2) ∧
    (∀ e ∈ (remove_stale_nodes rt now).1.chunk_locations, e.2 ≠ []) := by
  have hpmem : (p, info) ∈ rt.nodes := dictFind_mem p rt.nodes info hp
  have hswept : ∀ e ∈ (remove_stale_nodes rt now).1.nodes, e.1 ≠ p := by
    intro e he hep
    rw [remove_stale_nodes] at he
    simp only at he
    have hel : e ∈ rt.nodes := List.mem_of_mem_filter he
    have hkeep := List.of_mem_filter he
    have : dictFind e.1 rt.nodes = some e.2 :=
      dictFind_eq_of_mem_nodup rt.nodes e hnd hel
    rw [hep, hp] at this
    injection this with hinfo
    rw [hinfo] at hstale
    simp [isStale] at hkeep
    omega
  have hval : ∀ e ∈ (remove_stale_nodes rt now).1.nodes, e.2.node_id ≠ p := by
    intro e he
    have hel : e ∈ rt.nodes := by
      rw [remove_stale_nodes] at he
      exact List.mem_of_mem_filter he
    rw [hkm e hel]
    exact hswept e he
  have hstaleIds : p ∈ (remove_stale_nodes rt now).2 := by
    rw [remove_stale_nodes]
    simp only
    refine List.mem_map.mpr ⟨(p, info), ?_, rfl⟩
    exact List.mem_filter.mpr ⟨hpmem, by simp [isStale]; omega⟩
  refine ⟨?_, ?_, ?_, ?_, ?_⟩
  · intro n hn
    rw [get_active_nodes] at hn
    simp only at hn
    obtain ⟨e, he, rfl⟩ := List.mem_map.mp hn
    exact hval e he
  · intro n hn
    rw [lookup_nodes] at hn
    by_cases hemp : (remove_stale_nodes rt now).1.nodes.isEmpty
    · simp only [hemp, if_pos] at hn
      simp at hn
    · simp only [hemp, Bool.false_eq_true, if_false] at hn
      have hmem : n ∈ (remove_stale_nodes rt now).1.nodes.map (·.2) :=
        (sortStable_perm _ _).mem_iff.mp (List.mem_of_mem_take hn)
      obtain ⟨e, he, rfl⟩ := List.mem_map.mp hmem
      exact hval e he
  · intro n hn
    rw [get_chunk_locations] at hn
    simp only at hn
    obtain ⟨nid, _, hfind⟩ := List.mem_filterMap.mp hn
    have he : (nid, n) ∈ (remove_stale_nodes rt now).1.nodes :=
      dictFind_mem nid _ n hfind
    exact hval (nid, n) he
  · intro e he
    rw [remove_stale_nodes] at he
    simp only at he
    refine foldl_discard_absent p _ rt.chunk_locations ?_ e he
    have := hstaleIds
    rw [remove_stale_nodes] at this
    exact this
  · intro e he
    rw [remove_stale_nodes] at he
    simp only at he
    refine foldl_discard_nonempty_of_ne_nil _ rt.chunk_locations ?_ e he
    intro hnil
    have := hstaleIds
    rw [remove_stale_nodes] at this
    simp only at this
    rw [hnil] at this
    simp at this

/-- A routing table with one long-silent peer, for the eviction witness. -/
def staleTable : RoutingTable :=
  ⟨[("p", ⟨"p", "addrP", 0, []⟩)], [("d", ["p"])], 60⟩

/-- Concrete instance of the eviction theorem: peer "p" last seen at 0,
queried at time 100 with a 60-second timeout. -/
theorem stale_peer_evicted_witness :
    (∀ n ∈ (get_active_nodes staleTable 100).2, n.node_id ≠ "p") ∧
    (∀ n ∈ (lookup_nodes (fun _ => 0) staleTable 100 "t" 3).2,
      n.node_id ≠ "p") ∧
    (∀ n ∈ (get_chunk_locations staleTable 100 "d").2, n.node_id ≠ "p") ∧
    (∀ e ∈ (remove_stale_nodes staleTable 100).1.chunk_locations, "p" ∉ e.2) ∧
    (∀ e ∈ (remove_stale_nodes staleTable 100).1.chunk_locations, e.2 ≠ []) :=
  stale_peer_evicted (fun _ => 0) staleTable 100 "p" ⟨"p", "addrP", 0, []⟩
    (by decide) (by decide) (by decide) (by decide) "t" "d" 3

/-! ## Chunk-index integrity (C8) -/

lemma dictUpdate_keys {β : Type} (k : String) (f : β → β)
    (l : List (String × β)) :
    (dictUpdate k f l).map (·.1) = l.map (·.1) := by
  induction l with
  | nil => rfl
  | cons e rest ih =>
    rw [dictUpdate, List.map_cons]
    by_cases he : e.1 = k
    · rw [if_pos he]
      simp only [List.map_cons]
      rw [← ih]
      rfl
    · rw [if_neg he]
      simp only [List.map_cons]
      rw [← ih]
      rfl

lemma dictFind_dictUpdate {β : Type} (k k' : String) (f : β → β)
    (l : List (String × β)) :
    dictFind k (dictUpdate k' f l) =
      (dictFind k l).map (fun v => if k = k' then f v else v) := by
  induction l with
  | nil => rfl
  | cons e rest ih =>
    rw [dictUpdate, List.map_cons, dictFind, dictFind]
    by_cases he : e.1 = k'
    · simp only [if_pos he]
      by_cases hek : e.1 = k
      · rw [if_pos hek, if_pos hek]
        simp [← hek, he]
      · rw [if_neg hek, if_neg hek]
        rw [← dictUpdate] at *
        exact ih
    · simp only [if_neg he]
      by_cases hek : e.1 = k
      · rw [if_pos hek, if_pos hek]
        have : ¬ k = k' := by rw [← hek]; exact he
        simp [this]
      · rw [if_neg hek, if_neg hek]
        rw [← dictUpdate] at *
        exact ih

lemma dictFind_append {β : Type} (k : String) (l l₂ : List (String × β)) :
    dictFind k (l ++ l₂) = (dictFind k l).or (dictFind k l₂) := by
  induction l with
  | nil => simp [dictFind]
  | cons e rest ih =>
    rw [List.cons_append, dictFind, dictFind]
    by_cases he : e.1 = k
    · rw [if_pos he, if_pos he]
      rfl
    · rw [if_neg he, if_neg he]
      exact ih

lemma mem_keys_of_dictFind_some {β : Type} (k : String)
    (l : List (String × β)) (v : β) (h : dictFind k l = some v) :
    k ∈ l.map (·.1) := by
  have := dictFind_mem k l v h
  exact List.mem_map.mpr ⟨(k, v), this, rfl⟩

lemma setAdd_mem_self (x : String) (s : List String) : x ∈ setAdd x s := by
  rw [setAdd]
  by_cases h : x ∈ s
  · rw [if_pos h]; exact h
  · rw [if_neg h]; simp

lemma setAdd_subset (x y : String) (s : List String) (h : y ∈ setAdd x s) :
    y = x ∨ y ∈ s := by
  rw [setAdd] at h
  by_cases hx : x ∈ s
  · rw [if_pos hx] at h
    exact Or.inr h
  · rw [if_neg hx] at h
    rcases List.mem_append.mp h with h' | h'
    · exact Or.inr h'
    · simp at h'
      exact Or.inl h'

/-- A peer-set entry of a swept index traces back to an entry of the
original index, with every surviving id not among the removed ones. -/
lemma foldl_discard_shape :
    ∀ (ids : List String) (locs : List (String × List String))
      (e : String × List String),
      e ∈ ids.foldl (fun ls q => discardPeer q ls) locs →
      ∃ e₀ ∈ locs, ∀ pid ∈ e.2, pid ∈ e₀.2 ∧ pid ∉ ids := by
  intro ids
  induction ids with
  | nil =>
    intro locs e he
    exact ⟨e, he, fun pid hp => ⟨hp, by simp⟩⟩
  | cons q rest ih =>
    intro locs e he
    rw [List.foldl_cons] at he
    obtain ⟨e₁, he₁, hpe₁⟩ := ih (discardPeer q locs) e he
    have hmap := List.mem_of_mem_filter he₁
    obtain ⟨e₀, he₀, heq⟩ := List.mem_map.mp hmap
    refine ⟨e₀, he₀, fun pid hp => ?_⟩
    obtain ⟨hin1, hnotin⟩ := hpe₁ pid hp
    rw [← heq] at hin1
    simp only at hin1
    have hin0 : pid ∈ e₀.2 := List.mem_of_mem_filter hin1
    have hneq : pid ≠ q := by
      have := List.of_mem_filter hin1
      simpa using this
    exact ⟨hin0, by
      intro hmem
      rcases List.mem_cons.mp hmem with rfl | h'
      · exact hneq rfl
      · exact hnotin h'⟩

/-- One serialized mutation of the peer directory, as exposed by the
tracker API (`src/dht_tracker/api/routes.py`): register, heartbeat,
announce (guarded by the registration check), and the sweep that every
read operation performs. -/
inductive TrackerStep : RoutingTable → RoutingTable → Prop
  | register (rt : RoutingTable) (now : Int) (nid addr : String) :
      TrackerStep rt (register_node rt now nid addr)
  | heartbeatStep (rt : RoutingTable) (now : Int) (nid : String) :
      TrackerStep rt (heartbeat rt now nid).1
  | announce (rt rt' : RoutingTable) (ch nid : String)
      (h : announce_chunk rt ch nid = Except.ok rt') : TrackerStep rt rt'
  | sweep (rt : RoutingTable) (now : Int) :
      TrackerStep rt (remove_stale_nodes rt now).1

/-- States of the peer directory reachable from the empty table through
the tracker API. -/
inductive TrackerReachable (timeout : Int) : RoutingTable → Prop
  | init : TrackerReachable timeout ⟨[], [], timeout⟩
  | step {rt rt' : RoutingTable} : TrackerReachable timeout rt →
      TrackerStep rt rt' → TrackerReachable timeout rt'

/-- The chunk-index invariant: dict keys are unique and every peer id
recorded for a chunk is a registered node. -/
def ChunkIndexWF (rt : RoutingTable) : Prop :=
  (rt.nodes.map (·.1)).Nodup ∧
  ∀ e ∈ rt.chunk_locations, ∀ pid ∈ e.2,
    ∃ i, dictFind pid rt.nodes = some i

lemma dictFind_isSome_of_mem_keys {β : Type} (k : String)
    (l : List (String × β)) (h : k ∈ l.map (·.1)) :
    ∃ v, dictFind k l = some v := by
  induction l with
  | nil => simp at h
  | cons e rest ih =>
    rw [dictFind]
    by_cases he : e.1 = k
    · rw [if_pos he]
      exact ⟨e.2, rfl⟩
    · rw [if_neg he]
      rw [List.map_cons] at h
      rcases List.mem_cons.mp h with h' | h'
      · exact absurd h'.symm he
      · exact ih h'

lemma not_mem_keys_of_dictFind_none {β : Type} (k : String)
    (l : List (String × β)) (h : dictFind k l = none) :
    k ∉ l.map (·.1) := by
  intro hm
  obtain ⟨v, hv⟩ := dictFind_isSome_of_mem_keys k l hm
  rw [h] at hv
  cases hv

lemma ChunkIndexWF_register (rt : RoutingTable) (now : Int)
    (nid addr : String) (h : ChunkIndexWF rt) :
    ChunkIndexWF (register_node rt now nid addr) := by
  obtain ⟨hnd, hloc⟩ := h
  rw [register_node]
  cases hfind : dictFind nid rt.nodes with
  | some i =>
    refine ⟨by rw [dictUpdate_keys]; exact hnd, ?_⟩
    intro e he pid hpid
    obtain ⟨i', hi'⟩ := hloc e he pid hpid
    exact ⟨_, by rw [dictFind_dictUpdate, hi']; rfl⟩
  | none =>
    refine ⟨?_, ?_⟩
    · simp only [List.map_append]
      rw [List.nodup_append]
      exact ⟨hnd, by simp, by
        simp only [List.map_cons, List.map_nil]
        intro a ha hb
        simp at hb
        rw [hb] at ha
        exact not_mem_keys_of_dictFind_none nid rt.nodes hfind ha⟩
    · intro e he pid hpid
      obtain ⟨i', hi'⟩ := hloc e he pid hpid
      exact ⟨i', by rw [dictFind_append, hi']; rfl⟩

lemma ChunkIndexWF_heartbeat (rt : RoutingTable) (now : Int) (nid : String)
    (h : ChunkIndexWF rt) : ChunkIndexWF (heartbeat rt now nid).1 := by
  obtain ⟨hnd, hloc⟩ := h
  rw [heartbeat]
  cases hfind : dictFind nid rt.nodes with
  | some i =>
    refine ⟨by rw [dictUpdate_keys]; exact hnd, ?_⟩
    intro e he pid hpid
    obtain ⟨i', hi'⟩ := hloc e he pid hpid
    exact ⟨_, by rw [dictFind_dictUpdate, hi']; rfl⟩
  | none => exact ⟨hnd, hloc⟩

lemma store_nodes_eq (rt : RoutingTable) (ch nid : String)
    (i0 : NodeInfo) (hreg : dictFind nid rt.nodes = some i0) :
    (store_chunk_location rt ch nid).nodes =
      dictUpdate nid (fun n => { n with chunks := setAdd ch n.chunks })
        rt.nodes := by
  rw [store_chunk_location]
  simp only [hreg]

lemma store_locs_eq (rt : RoutingTable) (ch nid : String) :
    (store_chunk_location rt ch nid).chunk_locations =
      (match dictFind ch rt.chunk_locations with
       | some _ => dictUpdate ch (setAdd nid) rt.chunk_locations
       | none => rt.chunk_locations ++ [(ch, [nid])]) := by
  rw [store_chunk_location]

lemma ChunkIndexWF_store (rt : RoutingTable) (ch nid : String)
    (i0 : NodeInfo) (hreg : dictFind nid rt.nodes = some i0)
    (h : ChunkIndexWF rt) :
    ChunkIndexWF (store_chunk_location rt ch nid) := by
  obtain ⟨hnd, hloc⟩ := h
  have hnodes : ∀ pid (i : NodeInfo), dictFind pid rt.nodes = some i →
      ∃ i', dictFind pid (store_chunk_location rt ch nid).nodes = some i' := by
    intro pid i hi
    rw [store_nodes_eq rt ch nid i0 hreg]
    exact ⟨_, by rw [dictFind_dictUpdate, hi]; rfl⟩
  constructor
  · rw [store_nodes_eq rt ch nid i0 hreg, dictUpdate_keys]
    exact hnd
  · intro e he pid hpid
    cases hfind : dictFind ch rt.chunk_locations with
    | some s =>
      rw [store_locs_eq] at he
      simp only [hfind] at he
      rw [dictUpdate] at he
      obtain ⟨e₀, he₀, heq⟩ := List.mem_map.mp he
      by_cases hch : e₀.1 = ch
      · rw [if_pos hch] at heq
        rw [← heq] at hpid
        simp only at hpid
        rcases setAdd_subset nid pid e₀.2 hpid with rfl | hp0
        · exact hnodes pid i0 hreg
        · obtain ⟨i', hi'⟩ := hloc e₀ he₀ pid hp0
          exact hnodes pid i' hi'
      · rw [if_neg hch] at heq
        rw [← heq] at hpid
        obtain ⟨i', hi'⟩ := hloc e₀ he₀ pid hpid
        exact hnodes pid i' hi'
    | none =>
      rw [store_locs_eq] at he
      simp only [hfind] at he
      rcases List.mem_append.mp he with he' | he'
      · obtain ⟨i', hi'⟩ := hloc e he' pid hpid
        exact hnodes pid i' hi'
      · simp only [List.mem_singleton] at he'
        rw [he'] at hpid
        simp only [List.mem_singleton] at hpid
        rw [hpid]
        exact hnodes nid i0 hreg

lemma ChunkIndexWF_sweep (rt : RoutingTable) (now : Int)
    (h : ChunkIndexWF rt) :
    ChunkIndexWF (remove_stale_nodes rt now).1 := by
  obtain ⟨hnd, hloc⟩ := h
  rw [remove_stale_nodes]
  have hnd' : ((rt.nodes.filter
      (fun e => ¬ isStale rt now e.2)).map (·.1)).Nodup :=
    hnd.sublist ((List.filter_sublist rt.nodes).map (·.1))
  refine ⟨hnd', ?_⟩
  intro e he pid hpid
  simp only at he
  obtain ⟨e₀, he₀, hshape⟩ := foldl_discard_shape _ rt.chunk_locations e he
  obtain ⟨hp0, hnot⟩ := hshape pid hpid
  obtain ⟨i, hi⟩ := hloc e₀ he₀ pid hp0
  have hmem : (pid, i) ∈ rt.nodes := dictFind_mem pid rt.nodes i hi
  have hnotstale : ¬ isStale rt now i := by
    intro hs
    apply hnot
    refine List.mem_map.mpr ⟨(pid, i), ?_, rfl⟩
    exact List.mem_filter.mpr ⟨hmem, by simp [hs]⟩
  have hkeep : (pid, i) ∈ rt.nodes.filter (fun e => ¬ isStale rt now e.2) :=
    List.mem_filter.mpr ⟨hmem, by simp [hnotstale]⟩
  exact ⟨i, dictFind_eq_of_mem_nodup _ (pid, i) hnd' hkeep⟩

/-- C8: in every reachable peer-directory state, every (digest, peer-id)
pair in the chunk index refers to a registered peer and the dict keys
are unique; `announce` fails exactly when the peer is absent, and a
successful `announce` records the peer under the digest and the digest
in the peer's chunk set. -/
theorem chunk_index_registered (t : Int) (rt : RoutingTable)
    (hr : TrackerReachable t rt) :
    ChunkIndexWF rt ∧
    (∀ ch nid, dictFind nid rt.nodes = none ↔
      ∃ msg, announce_chunk rt ch nid = Except.error msg) ∧
    (∀ ch nid rt', announce_chunk rt ch nid = Except.ok rt' →
      (∃ s, dictFind ch rt'.chunk_locations = some s ∧ nid ∈ s) ∧
      (∃ i, dictFind nid rt'.nodes = some i ∧ ch ∈ i.chunks)) := by
  have hwf : ChunkIndexWF rt := by
    induction hr with
    | init => exact ⟨by simp, by simp⟩
    | step hr' hstep ih =>
      cases hstep with
      | register now nid addr => exact ChunkIndexWF_register _ now nid addr ih
      | heartbeatStep now nid => exact ChunkIndexWF_heartbeat _ now nid ih
      | announce rt' ch nid h =>
        rw [announce_chunk.eq_def] at h
        split at h
        next hfind => cases h
        next i hfind =>
          injection h with h
          rw [← h]
          exact ChunkIndexWF_store _ ch nid i hfind ih
      | sweep now => exact ChunkIndexWF_sweep _ now ih
  refine ⟨hwf, ?_, ?_⟩
  · intro ch nid
    constructor
    · intro hnone
      rw [announce_chunk.eq_def, hnone]
      exact ⟨"Node " ++ nid ++ " not registered", rfl⟩
    · rintro ⟨msg, hmsg⟩
      rw [announce_chunk.eq_def] at hmsg
      cases hfind : dictFind nid rt.nodes with
      | none => rfl
      | some i => simp only [hfind] at hmsg; cases hmsg
  · intro ch nid rt' hok
    rw [announce_chunk.eq_def] at hok
    cases hfind : dictFind nid rt.nodes with
    | none => simp only [hfind] at hok; cases hok
    | some i =>
      simp only [hfind] at hok
      injection hok with hok
      rw [← hok]
      constructor
      · rw [store_locs_eq]
        cases hloc : dictFind ch rt.chunk_locations with
        | some s =>
          refine ⟨setAdd nid s, ?_, setAdd_mem_self nid s⟩
          simp only [hloc]
          rw [dictFind_dictUpdate, hloc]
          simp
        | none =>
          refine ⟨[nid], ?_, by simp⟩
          simp only [hloc]
          rw [dictFind_append, hloc]
          simp [dictFind]
      · refine ⟨{ i with chunks := setAdd ch i.chunks }, ?_,
          setAdd_mem_self ch i.chunks⟩
        rw [store_nodes_eq rt ch nid i hfind, dictFind_dictUpdate, hfind]
        simp

/-- Concrete instance of the chunk-index invariant, at the state reached
by registering node "n1" and announcing digest "d" for it. -/
theorem chunk_index_registered_witness :
    ChunkIndexWF (store_chunk_location
      (register_node ⟨[], [], 60⟩ 0 "n1" "a1") "d" "n1") ∧
    (∀ ch nid,
      dictFind nid (store_chunk_location
        (register_node ⟨[], [], 60⟩ 0 "n1" "a1") "d" "n1").nodes = none ↔
      ∃ msg, announce_chunk (store_chunk_location
        (register_node ⟨[], [], 60⟩ 0 "n1" "a1") "d" "n1") ch nid =
          Except.error msg) ∧
    (∀ ch nid rt', announce_chunk (store_chunk_location
        (register_node ⟨[], [], 60⟩ 0 "n1" "a1") "d" "n1") ch nid =
          Except.ok rt' →
      (∃ s, dictFind ch rt'.chunk_locations = some s ∧ nid ∈ s) ∧
      (∃ i, dictFind nid rt'.nodes = some i ∧ ch ∈ i.chunks)) :=
  chunk_index_registered 60 _
    (TrackerReachable.step
      (TrackerReachable.step TrackerReachable.init
        (TrackerStep.register ⟨[], [], 60⟩ 0 "n1" "a1"))
      (TrackerStep.announce _ _ "d" "n1" rfl))

/-! ## Replication candidate ordering
(`src/gateway/services/replication.py`)

`replicate_chunk` fetches `self.dht.get_active_nodes()` (the tracker's
`GET /nodes`, i.e. `RoutingTable.get_active_nodes`) and iterates
`nodes[: self.k]`; `repair_replication` filters the same active list by
the current holders and takes the first `needed`.  Neither consults
`get_closest_nodes`, although `DHTClient` offers it and the module
docstring says "find the k closest nodes via DHT". -/

/-- The candidate peers `replicate_chunk` tries, in order: the first `k`
entries of the active-node list. -/
def replicate_candidates (rt : RoutingTable) (now : Int) (k : Nat) :
    List NodeInfo :=
  ((get_active_nodes rt now).2).take k

/-- The candidate peers `repair_replication` tries, in order: active
nodes not among the current holders, first `needed = k - |current|`. -/
def repair_candidates (rt : RoutingTable) (now : Int)
    (current_ids : List String) (k : Nat) : List NodeInfo :=
  (((get_active_nodes rt now).2).filter
    (fun n => n.node_id ∉ current_ids)).take (k - current_ids.length)

/-- Id hash for the replication scenario: "n2" and digest "d" hash to 0,
everything else to 1, making "n2" XOR-nearest to "d". -/
def replHash : String → Nat := fun s => if s = "n2" ∨ s = "d" then 0 else 1

/-- Peer directory with "n1" registered before "n2", both fresh. -/
def replTable : RoutingTable :=
  register_node (register_node ⟨[], [], 60⟩ 0 "n1" "a1") 0 "n2" "a2"

/-- C6: with two active peers "n1" (registered first, XOR-far from the
digest) and "n2" (XOR-near) and k = 1, `replicate_chunk` uploads to
"n1" — the first entry of `get_active_nodes()` — while the XOR-nearest
lookup ranks "n2" first; `repair_replication` picks the same "n1".  The
code never consults the nearest lookup, contradicting the claim and the
module's own docstring ("find the k closest nodes via DHT"). -/
theorem replication_ignores_xor_order :
    replicate_candidates replTable 0 1 = [⟨"n1", "a1", 0, []⟩] ∧
    repair_candidates replTable 0 [] 1 = [⟨"n1", "a1", 0, []⟩] ∧
    (lookup_nodes replHash replTable 0 "d" 1).2 = [⟨"n2", "a2", 0, []⟩] ∧
    (lookup_nodes replHash replTable 0 "d" 1).2.length = 1 ∧
    replicate_candidates replTable 0 1 ≠
      (lookup_nodes replHash replTable 0 "d" 1).2 := by
  refine ⟨rfl, rfl, rfl, rfl, ?_⟩
  intro h
  have h' : ([⟨"n1", "a1", 0, []⟩] : List NodeInfo) =
      [⟨"n2", "a2", 0, []⟩] := h
  simp [NodeInfo.mk.injEq] at h'

/-! ## Chunk store (`src/storage_node/services/chunk_store.py`)

The data directory is a mapping file-name → bytes; chunks are stored
under their digest as file name.  `hashlib.sha256(...).hexdigest()` is
the opaque parameter `H : List Nat → String`. -/

/-- `ChunkStore.store`: if the path already exists, return
`AlreadyPresent` (`False`) at once — the hash check is only reached for
new digests; a mismatch there raises `ValueError`, otherwise the chunk
is written and `Stored` (`True`) returned. -/
def chunk_store_store (H : List Nat → String)
    (store : List (String × List Nat)) (chunk_hash : String)
    (data : List Nat) : Except String (List (String × List Nat) × Bool) :=
  if (dictFind chunk_hash store).isSome then .ok (store, false)
  else if H data ≠ chunk_hash then
    .error ("Chunk hash mismatch: expected " ++ chunk_hash ++ ", got " ++
      H data)
  else .ok (store ++ [(chunk_hash, data)], true)

/-- `ChunkStore.retrieve`: the stored bytes, or `None`. -/
def chunk_store_retrieve (store : List (String × List Nat))
    (chunk_hash : String) : Option (List Nat) :=
  dictFind chunk_hash store

/-- `ChunkStore.delete`: unlink the file if present (`True`), else
`False` (`NotFound`). -/
def chunk_store_delete (store : List (String × List Nat))
    (chunk_hash : String) : List (String × List Nat) × Bool :=
  if (dictFind chunk_hash store).isSome then
    (store.filter (fun e => e.1 ≠ chunk_hash), true)
  else (store, false)

/-- Digest function for the chunk-store counterexample: `[1] ↦ "a"`,
everything else `↦ "z"`. -/
def H9 : List Nat → String := fun d => if d = [1] then "a" else "z"

/-- C9, counterexample: after a valid `store("a", [1])`, the call
`store("a", [2])` has `H([2]) = "z" ≠ "a"` yet returns `AlreadyPresent`
instead of raising `DigestMismatch` — the existence check precedes the
hash verification. -/
theorem store_digestmismatch_counterexample :
    chunk_store_store H9 [] "a" [1] = Except.ok ([("a", [1])], true) ∧
    chunk_store_store H9 [("a", [1])] "a" [2] =
      Except.ok ([("a", [1])], false) ∧
    H9 [2] ≠ "a" := by
  exact ⟨rfl, rfl, by decide⟩

/-- C9, amended: `store` raises `DigestMismatch` exactly when the digest
is not already present and the hash mismatches; with a matching hash it
returns `Stored` on the first call and `AlreadyPresent` on the second;
any call with an already-present digest returns `AlreadyPresent` without
verifying the hash. -/
theorem store_digest_check (H : List Nat → String)
    (store : List (String × List Nat)) (d : String) (b : List Nat) :
    (dictFind d store = none → H b ≠ d →
      chunk_store_store H store d b =
        Except.error ("Chunk hash mismatch: expected " ++ d ++ ", got " ++
          H b)) ∧
    (dictFind d store = none → H b = d →
      chunk_store_store H store d b = Except.ok (store ++ [(d, b)], true) ∧
      chunk_store_store H (store ++ [(d, b)]) d b =
        Except.ok (store ++ [(d, b)], false)) ∧
    ((dictFind d store).isSome →
      chunk_store_store H store d b = Except.ok (store, false)) := by
  refine ⟨?_, ?_, ?_⟩
  · intro habs hne
    rw [chunk_store_store, if_neg (by rw [habs]; simp), if_pos hne]
  · intro habs heq
    constructor
    · rw [chunk_store_store, if_neg (by rw [habs]; simp),
        if_neg (by rw [heq]; simp)]
    · rw [chunk_store_store, if_pos ?_]
      rw [dictFind_append, habs]
      simp [dictFind]
  · intro hsome
    rw [chunk_store_store, if_pos hsome]

/-- Concrete instance of the amended store contract. -/
theorem store_digest_check_witness :
    (dictFind "q" ([] : List (String × List Nat)) = none → H9 [2] ≠ "q" →
      chunk_store_store H9 [] "q" [2] =
        Except.error ("Chunk hash mismatch: expected " ++ "q" ++ ", got " ++
          H9 [2])) ∧
    (dictFind "q" ([] : List (String × List Nat)) = none → H9 [2] = "q" →
      chunk_store_store H9 [] "q" [2] = Except.ok ([("q", [2])], true) ∧
      chunk_store_store H9 [("q", [2])] "q" [2] =
        Except.ok ([("q", [2])], false)) ∧
    ((dictFind "q" ([] : List (String × List Nat))).isSome →
      chunk_store_store H9 [] "q" [2] = Except.ok ([], false)) :=
  store_digest_check H9 [] "q" [2]

lemma dictFind_filter_key_ne {β : Type} (d d' : String) (hne : d' ≠ d)
    (l : List (String × β)) :
    dictFind d' (l.filter (fun e => e.1 ≠ d)) = dictFind d' l := by
  induction l with
  | nil => rfl
  | cons e rest ih =>
    by_cases hed : e.1 = d
    · have hdec : (decide (e.1 ≠ d)) = false := by simp [hed]
      rw [List.filter_cons, hdec]
      simp only [Bool.false_eq_true, if_false]
      conv_rhs => rw [dictFind]
      rw [if_neg (show ¬ e.1 = d' by rw [hed]; exact fun hc => hne hc.symm)]
      exact ih
    · have hdec : (decide (e.1 ≠ d)) = true := by simp [hed]
      rw [List.filter_cons, hdec]
      simp only [if_true]
      rw [dictFind]
      conv_rhs => rw [dictFind]
      by_cases he : e.1 = d'
      · rw [if_pos he, if_pos he]
      · rw [if_neg he, if_neg he]
        exact ih

/-- C10: chunk-store operations only touch the entry they name — for
`d' ≠ d`, `retrieve(d')` is unchanged by `store(d, b)` and `delete(d)`,
and deleting an absent digest returns `NotFound` and leaves the store
unchanged. -/
theorem chunk_store_frame (H : List Nat → String)
    (store : List (String × List Nat)) (d d' : String) (b : List Nat)
    (hne : d' ≠ d) :
    (∀ s' r, chunk_store_store H store d b = Except.ok (s', r) →
      chunk_store_retrieve s' d' = chunk_store_retrieve store d') ∧
    (chunk_store_retrieve (chunk_store_delete store d).1 d' =
      chunk_store_retrieve store d') ∧
    (chunk_store_retrieve store d = none →
      chunk_store_delete store d = (store, false)) := by
  refine ⟨?_, ?_, ?_⟩
  · intro s' r hok
    rw [chunk_store_store] at hok
    by_cases hsome : (dictFind d store).isSome
    · rw [if_pos hsome] at hok
      injection hok with hok
      injection hok with h1 h2
      rw [← h1]
    · rw [if_neg hsome] at hok
      by_cases hmis : H b ≠ d
      · rw [if_pos hmis] at hok
        cases hok
      · rw [if_neg hmis] at hok
        injection hok with hok
        injection hok with h1 h2
        rw [← h1, chunk_store_retrieve, chunk_store_retrieve,
          dictFind_append]
        have : dictFind d' [(d, b)] = none := by
          rw [dictFind, if_neg (fun h => hne h.symm)]
          rfl
        rw [this, Option.or_none]
  · rw [chunk_store_delete]
    by_cases hsome : (dictFind d store).isSome
    · rw [if_pos hsome]
      exact dictFind_filter_key_ne d d' hne store
    · rw [if_neg hsome]
  · intro habs
    rw [chunk_store_retrieve] at habs
    rw [chunk_store_delete, if_neg (by rw [habs]; simp)]

/-- Concrete instance of the frame property. -/
theorem chunk_store_frame_witness :
    (∀ s' r, chunk_store_store H9 [("w", [3])] "a" [1] = Except.ok (s', r) →
      chunk_store_retrieve s' "w" = chunk_store_retrieve [("w", [3])] "w") ∧
    (chunk_store_retrieve (chunk_store_delete [("w", [3])] "a").1 "w" =
      chunk_store_retrieve [("w", [3])] "w") ∧
    (chunk_store_retrieve [("w", [3])] "a" = none →
      chunk_store_delete [("w", [3])] "a" = ([("w", [3])], false)) :=
  chunk_store_frame H9 [("w", [3])] "a" "w" [1] (by decide)

/-! ## Gateway download tail (`src/gateway/api/routes.py`, `download_file`)

After the retrieval loop has collected `retrieved_encrypted` (a dict
digest → bytes, every entry already verified against its own digest) and
the chunk-count check has passed, the route recomputes a Merkle root
over `ordered_hashes = list(retrieved_encrypted.keys())` and compares it
with the manifest root — but a mismatch only emits `logger.warning(...)`
(and any exception from `MerkleTree(...)` is swallowed by
`except Exception: pass`); control flow then decrypts every chunk and
reassembles unconditionally.  Decryption is abstracted as
`dec : List Nat → Except String (List Nat)` (failure = HTTP 400). -/

/-- The Merkle-root comparison the download route performs: `true` when
the recomputed root matches the manifest root (an empty retrieval set
raises inside `MerkleTree` and is swallowed, so no mismatch is
observed). -/
def downloadRootMatches (H2 : String → String → String)
    (retrieved : List (String × List Nat)) (merkle_root : String) : Bool :=
  if (retrieved.map (·.1)).isEmpty then true
  else merkleRoot H2 (retrieved.map (·.1)) == merkle_root

/-- The tail of `download_file` from the Merkle-root comparison on: the
comparison result is only logged, then every chunk is decrypted (any
failure aborts with HTTP 400) and the plaintexts are reassembled. -/
def download_tail (H2 : String → String → String)
    (dec : List Nat → Except String (List Nat)) (merkle_root : String)
    (retrieved : List (String × List Nat)) : Except String (List Nat) :=
  let _mismatch_warning := !downloadRootMatches H2 retrieved merkle_root
  match retrieved.mapM (fun e => dec e.2) with
  | .error e => .error ("Decryption failed: " ++ e)
  | .ok chunks => reassemble_file chunks

/-- C4, counterexample: a retrieval whose recomputed Merkle root "xy"
differs from the manifest root "zzz", yet `download_file` returns the
file bytes — the mismatch is only logged, the download is not aborted. -/
theorem download_merkle_mismatch_counterexample :
    downloadRootMatches (fun a b => a ++ b) [("x", [1]), ("y", [2])] "zzz"
      = false ∧
    download_tail (fun a b => a ++ b) (fun c => Except.ok c) "zzz"
      [("x", [1]), ("y", [2])] = Except.ok [1, 2] := by
  constructor
  · have hroot : merkleRoot (fun a b => a ++ b) ["x", "y"] = "xy" := by
      rw [merkleRoot, buildLevels]
      norm_num [pairUp]
      rw [buildLevels]
      norm_num
      decide
    rw [downloadRootMatches]
    norm_num [hroot]
    decide
  · rw [download_tail]
    norm_num [List.mapM_cons, List.mapM_nil, reassemble_file]
    rfl

lemma mapM_ok_of_all_ok (dec : List Nat → Except String (List Nat)) :
    ∀ retrieved : List (String × List Nat),
      (∀ e ∈ retrieved, ∃ c, dec e.2 = Except.ok c) →
      ∃ cs, retrieved.mapM (fun e => dec e.2) = Except.ok cs ∧
        cs.length = retrieved.length := by
  intro retrieved
  induction retrieved with
  | nil => intro _; exact ⟨[], rfl, rfl⟩
  | cons e rest ih =>
    intro h
    obtain ⟨c, hc⟩ := h e (List.mem_cons_self e rest)
    obtain ⟨cs, hcs, hlen⟩ := ih (fun f hf => h f (List.mem_cons_of_mem e hf))
    refine ⟨c :: cs, ?_, by simp [hlen]⟩
    rw [List.mapM_cons, hc, hcs]
    rfl

/-- C4, amended: the recomputed Merkle root has no effect on the
download result — `download_tail` returns the same value whatever the
manifest root is, and whenever all chunks decrypt and at least one chunk
was retrieved it returns the file bytes, mismatch or not.  The only
aborts are decryption failure (HTTP 400) and the earlier
retrieved-count/no-nodes checks. -/
theorem download_ignores_merkle_root (H2 : String → String → String)
    (dec : List Nat → Except String (List Nat)) (r₁ r₂ : String)
    (retrieved : List (String × List Nat)) :
    download_tail H2 dec r₁ retrieved = download_tail H2 dec r₂ retrieved ∧
    ((∀ e ∈ retrieved, ∃ c, dec e.2 = Except.ok c) → retrieved ≠ [] →
      ∃ bytes, download_tail H2 dec r₁ retrieved = Except.ok bytes) := by
  constructor
  · rfl
  · intro hdec hne
    obtain ⟨cs, hcs, hlen⟩ := mapM_ok_of_all_ok dec retrieved hdec
    have hcsne : cs.isEmpty = false := by
      rw [List.isEmpty_eq_false_iff_exists_mem]
      refine List.exists_mem_of_length_pos ?_
      rw [hlen]
      exact List.length_pos.mpr hne
    refine ⟨cs.flatten, ?_⟩
    rw [download_tail]
    simp only [hcs, reassemble_file, hcsne, Bool.false_eq_true, if_false]

/-- Concrete instance of the amended download theorem: two manifest
roots, identity decryption, two retrieved chunks. -/
theorem download_ignores_merkle_root_witness :
    download_tail (fun a b => a ++ b) (fun c => Except.ok c) "zzz"
        [("x", [1]), ("y", [2])] =
      download_tail (fun a b => a ++ b) (fun c => Except.ok c) "xy"
        [("x", [1]), ("y", [2])] ∧
    ((∀ e ∈ ([("x", [1]), ("y", [2])] : List (String × List Nat)),
        ∃ c, (Except.ok e.2 : Except String (List Nat)) = Except.ok c) →
      ([("x", [1]), ("y", [2])] : List (String × List Nat)) ≠ [] →
      ∃ bytes, download_tail (fun a b => a ++ b) (fun c => Except.ok c)
        "zzz" [("x", [1]), ("y", [2])] = Except.ok bytes) :=
  download_ignores_merkle_root (fun a b => a ++ b) (fun c => Except.ok c)
    "zzz" "xy" [("x", [1]), ("y", [2])]

end SecureStorage
